import Mathlib

/-!
Verification development for the whisper-transcriber batch orchestration layer.

The definitions below are a shallow embedding of `src/BatchProcessor.js` and of
`WhisperTranscriber.getAudioInfo` from `src/WhisperTranscriber.js`.  JavaScript
numbers are modelled as rationals extended with the IEEE special values NaN and
the two infinities (`JsNum`); machine strings are Lean `String`s.  The external
collaborators (the transcription binary, the ffprobe tool, the wall clock) are
parameters of the embedding (`Env`, `ProbeOut`): each choice of parameters is
one behaviour of the outside world, and the theorems quantify over them.
-/

/-- Model of an arbitrary JavaScript value, used for option bags where the
source compares with strict (in)equality (`options.continueOnError !== false`). -/
inductive JSValue where
  | undef
  | null
  | bool (b : Bool)
  | num (q : ℚ)
  | str (s : String)
deriving DecidableEq

/-- Embedding of the JavaScript expression `v !== false`: true for every value
except the boolean `false` itself. -/
def jsStrictNeFalse (v : JSValue) : Bool :=
  match v with
  | JSValue.bool false => false
  | _ => true

/-- Embedding of `options.concurrency || 1`: `0` and a missing value are falsy,
so they fall back to the default. -/
def jsOrNat (v : Option Nat) (d : Nat) : Nat :=
  match v with
  | none => d
  | some 0 => d
  | some (Nat.succ n) => Nat.succ n

/-- Embedding of `options.outputDir || dflt`: a missing value and the empty
string are falsy, so they fall back to the default. -/
def jsOrStr (v : Option String) (d : String) : String :=
  match v with
  | none => d
  | some s => if s = "" then d else s

/-- Option bag accepted by the `BatchProcessor` constructor (the fields the
constructor reads). -/
structure BatchOptions where
  concurrency : Option Nat
  outputDir : Option String
  continueOnError : JSValue

/-- Configuration stored on a `BatchProcessor` instance by its constructor. -/
structure BatchProcessorCfg where
  concurrency : Nat
  outputDir : String
  continueOnError : Bool
deriving DecidableEq

/-- Embedding of the `BatchProcessor` constructor (src/BatchProcessor.js lines
8-13). -/
def mkBatchProcessor (opts : BatchOptions) : BatchProcessorCfg :=
  { concurrency := jsOrNat opts.concurrency 1
    outputDir := jsOrStr opts.outputDir "./output"
    continueOnError := jsStrictNeFalse opts.continueOnError }

/-- Path separator used by the model (POSIX). -/
def slashSep : String := "/"

/-- Lower-casing of one ASCII character (the extensions on the allow-list are
ASCII). -/
def charLower (c : Char) : Char :=
  if 'A' ≤ c ∧ c ≤ 'Z' then Char.ofNat (c.toNat + 32) else c

/-- Lower-casing of a string, character by character. -/
def lowerStr (s : String) : String :=
  String.mk (s.data.map charLower)

/-- Suffix test on strings (kernel-computable form of `String.endsWith`). -/
def endsWithStr (s suffix : String) : Bool :=
  suffix.data.isSuffixOf s.data

/-- Embedding of `path.basename(p)`: the part of the path after the last
separator. -/
def basename (p : String) : String :=
  String.mk (p.data.foldl (fun acc c => if c = '/' then [] else acc ++ [c]) [])

/-- Extension of a file name: the last dot of the basename together with what
follows it; a dot in first position does not start an extension (as in
`path.extname`). -/
def extnameOf (p : String) : String :=
  let b := basename p
  match (b.toList.reverse).span (fun c => c ≠ '.') with
  | (ext, '.' :: rest) => if rest = [] then "" else String.mk ('.' :: ext.reverse)
  | (_, _) => ""

/-- Embedding of `path.basename(p, path.extname(p))`: the basename with the
extension removed. -/
def basenameNoExt (p : String) : String :=
  let b := basename p
  let e := extnameOf p
  if e = "" then b else String.mk (b.data.take (b.data.length - e.data.length))

/-- Embedding of `path.join(a, b)` for the uses in the source (no
normalisation is modelled; no claim inspects the joined path). -/
def joinPath (a b : String) : String := a ++ slashSep ++ b

/-- Model of a JavaScript number: a rational, or one of the IEEE special
values produced by the arithmetic the source performs. Negative zero is
identified with zero, and magnitudes at or above 10^21 (where `toFixed`
switches to exponent notation) are not modelled; neither arises in the claims. -/
inductive JsNum where
  | nan
  | posInf
  | negInf
  | fin (q : ℚ)
deriving DecidableEq

/-- Floor of a rational (kernel-computable: the denominator of a normalised
rational is positive, so flooring divides the numerator by it, rounding
down). -/
def ratFloor (q : ℚ) : ℤ :=
  Int.fdiv q.num q.den

/-- Truncation of a rational toward zero, as JavaScript `%` uses. -/
def ratTrunc (q : ℚ) : ℤ :=
  if q < 0 then -ratFloor (-q) else ratFloor q

/-- Embedding of the JavaScript remainder `a % b` on finite numbers with b nonzero. -/
def jsRem (a b : ℚ) : ℚ :=
  a - b * (ratTrunc (a / b) : ℚ)

/-- Rendering of a finite number by `x.toFixed(2)`: round to the nearest
hundredth, ties toward the larger value, then print with exactly two decimal
digits. -/
def toFixed2 (q : ℚ) : String :=
  let n : ℤ := ratFloor (q * 100 + 1 / 2)
  let a := n.natAbs
  let sign := if n < 0 then "-" else ""
  let ip := a / 100
  let fp := a % 100
  sign ++ toString ip ++ "." ++ (if fp < 10 then "0" else "") ++ toString fp

/-- Rendering of an arbitrary JavaScript number by `x.toFixed(2)`. -/
def jsToFixed2 (x : JsNum) : String :=
  match x with
  | JsNum.nan => "NaN"
  | JsNum.posInf => "Infinity"
  | JsNum.negInf => "-Infinity"
  | JsNum.fin q => toFixed2 q

/-- IEEE division on modelled JavaScript numbers. -/
def jsDiv (x y : JsNum) : JsNum :=
  match x, y with
  | JsNum.nan, _ => JsNum.nan
  | _, JsNum.nan => JsNum.nan
  | JsNum.posInf, JsNum.posInf => JsNum.nan
  | JsNum.posInf, JsNum.negInf => JsNum.nan
  | JsNum.negInf, JsNum.posInf => JsNum.nan
  | JsNum.negInf, JsNum.negInf => JsNum.nan
  | JsNum.posInf, JsNum.fin q => if q < 0 then JsNum.negInf else JsNum.posInf
  | JsNum.negInf, JsNum.fin q => if q < 0 then JsNum.posInf else JsNum.negInf
  | JsNum.fin _, JsNum.posInf => JsNum.fin 0
  | JsNum.fin _, JsNum.negInf => JsNum.fin 0
  | JsNum.fin d, JsNum.fin p =>
      if p = 0 then
        (if d = 0 then JsNum.nan else if d < 0 then JsNum.negInf else JsNum.posInf)
      else JsNum.fin (d / p)

/-- Embedding of `WhisperTranscriber.formatDuration` lifted to modelled
numbers (Math.floor of NaN is NaN, and NaN compares false). -/
def formatDuration (x : JsNum) : String :=
  match x with
  | JsNum.nan => "NaNs"
  | JsNum.posInf => "Infinityh NaNm NaNs"
  | JsNum.negInf => "NaNs"
  | JsNum.fin seconds =>
      let hours : ℤ := ratFloor (seconds / 3600)
      let minutes : ℤ := ratFloor (jsRem seconds 3600 / 60)
      let secs : ℤ := ratFloor (jsRem seconds 60)
      if 0 < hours then
        toString hours ++ "h " ++ toString minutes ++ "m " ++ toString secs ++ "s"
      else if 0 < minutes then
        toString minutes ++ "m " ++ toString secs ++ "s"
      else
        toString secs ++ "s"

/-- Loop of `WhisperTranscriber.formatFileSize`: divide by 1024 while the size
is at least 1024 and the unit index is below the last unit.  The index bound
makes three iterations an exact fuel. -/
def fsLoopAux (fuel : Nat) (size : ℚ) (i : Nat) : ℚ × Nat :=
  match fuel with
  | 0 => (size, i)
  | Nat.succ f =>
      if 1024 ≤ size ∧ i < 3 then fsLoopAux f (size / 1024) (i + 1) else (size, i)

/-- Names of the file-size units used by `formatFileSize`. -/
def sizeUnits : List String := ["B", "KB", "MB", "GB"]

/-- Embedding of `WhisperTranscriber.formatFileSize` lifted to modelled
numbers. -/
def formatFileSize (bytes : JsNum) : String :=
  match bytes with
  | JsNum.nan => "NaN B"
  | JsNum.posInf => "Infinity GB"
  | JsNum.negInf => "-Infinity B"
  | JsNum.fin b =>
      let p := fsLoopAux 3 b 0
      toFixed2 p.1 ++ " " ++ (sizeUnits.getD p.2 "B")

/-- Model of one entry of the `streams` array in ffprobe output; every field
can be absent. -/
structure StreamRec where
  codecType : Option String
  codecName : Option String
  sampleRate : Option String
  channels : Option Nat
deriving DecidableEq

/-- Model of the `format` object in ffprobe output.  `duration` and `size`
carry the numbers produced by `parseFloat`/`parseInt` on the raw fields (NaN
when the field is absent or unparseable); `bit_rate` is taken verbatim. -/
structure FormatRec where
  duration : JsNum
  bitRate : Option String
  size : JsNum
deriving DecidableEq

/-- Behaviour of one invocation of the external ffprobe collaborator: the
process can fail, print something that is not JSON, or print a JSON document
in which the `streams` and `format` members may each be missing. -/
inductive ProbeOut where
  | execFail
  | notJson
  | json (streams : Option (List StreamRec)) (format : Option FormatRec)
deriving DecidableEq

/-- Record built by a successful `getAudioInfo` (src/WhisperTranscriber.js
lines 174-183). -/
structure AudioInfo where
  duration : String
  durationSeconds : JsNum
  codec : Option String
  sampleRate : Option String
  channels : Option Nat
  bitrate : Option String
  size : JsNum
  sizeFormatted : String
deriving DecidableEq

/-- Body of the `try` block of `getAudioInfo`: every JavaScript statement that
can throw (the exec itself, `JSON.parse`, member access on a missing
`streams` or `format`) is an `error` case; otherwise the info record is
assembled, with optional chaining giving absent fields when no audio stream
is found. -/
def getAudioInfoBody (b : ProbeOut) : Except Unit AudioInfo :=
  match b with
  | ProbeOut.execFail => Except.error ()
  | ProbeOut.notJson => Except.error ()
  | ProbeOut.json streams format =>
      match streams with
      | none => Except.error ()
      | some ss =>
          let audioStream := ss.find? (fun s => s.codecType = some "audio")
          match format with
          | none => Except.error ()
          | some fmt =>
              Except.ok
                { duration := formatDuration fmt.duration
                  durationSeconds := fmt.duration
                  codec := audioStream.bind (fun s => s.codecName)
                  sampleRate := audioStream.bind (fun s => s.sampleRate)
                  channels := audioStream.bind (fun s => s.channels)
                  bitrate := fmt.bitRate
                  size := fmt.size
                  sizeFormatted := formatFileSize fmt.size }

/-- Embedding of `WhisperTranscriber.getAudioInfo` (lines 165-187): the whole
body is wrapped in `try`/`catch`, and the catch returns `null`, so the caller
receives either the info record or `null` and never an exception. -/
def getAudioInfo (b : ProbeOut) : Option AudioInfo :=
  (getAudioInfoBody b).toOption

/-- Parsed transcript returned by the external transcription collaborator in
the structured output format; both JSON members may be absent. -/
structure Transcript where
  text : Option String
  language : Option String
deriving DecidableEq

/-- Behaviour of the outside world during one batch run: the ffprobe result
per file, the transcription outcome per file (an error carries the thrown
message), the wall-clock processing time per file in seconds, the timestamp
string per file, and the elapsed time of the whole batch. -/
structure Env where
  outputDir : String
  probe : String → Option AudioInfo
  transcribe : String → Except String Transcript
  ptime : String → ℚ
  now : String → String
  elapsed : ℚ

/-- Record pushed into `results` for one successfully processed job
(src/BatchProcessor.js lines 95-105). -/
structure JobResult where
  file : String
  fileName : String
  outputFile : String
  duration : Option JsNum
  processingTime : ℚ
  speedRatioStr : Option String
  text : Option String
  language : Option String
  timestamp : String
deriving DecidableEq

/-- Record pushed into `errors` for one failed job (src/BatchProcessor.js
lines 46-50). -/
structure JobErrorInfo where
  file : String
  error : String
  timestamp : String
deriving DecidableEq

/-- Embedding of `BatchProcessor.processFile` (lines 79-110).  The metadata
probe cannot throw; a transcription failure propagates as the error.  On
success the result record is assembled exactly as in the source; the
`speedRatioStr` field embeds the source field `speedRatio`, which is the
rendered quotient when `audioInfo` is non-null and `null` otherwise. -/
def processFile (env : Env) (filePath : String) : Except String JobResult :=
  match env.transcribe filePath with
  | Except.error e => Except.error e
  | Except.ok transcript =>
      Except.ok
        { file := filePath
          fileName := basename filePath
          outputFile := joinPath env.outputDir (basenameNoExt filePath ++ ".json")
          duration := (env.probe filePath).map (fun i => i.durationSeconds)
          processingTime := env.ptime filePath
          speedRatioStr :=
            (env.probe filePath).map
              (fun i => jsToFixed2 (jsDiv i.durationSeconds (JsNum.fin (env.ptime filePath))))
          text := transcript.text
          language := transcript.language
          timestamp := env.now filePath }

/-- Fuel-indexed form of `BatchProcessor.createBatches` (lines 112-118): each
loop iteration pushes `items.slice(i, i + batchSize)` and advances by
`batchSize`; the fuel (instantiated with the item count) dominates the number
of iterations whenever `batchSize` is positive.  A `batchSize` of zero makes
the source loop diverge; it is unreachable because the constructor normalises
the concurrency to at least 1. -/
def createBatchesAux (fuel : Nat) (items : List String) (batchSize : Nat) : List (List String) :=
  match fuel with
  | 0 => []
  | Nat.succ f =>
      if items.isEmpty then []
      else if batchSize = 0 then []
      else items.take batchSize :: createBatchesAux f (items.drop batchSize) batchSize

/-- Embedding of `BatchProcessor.createBatches`. -/
def createBatches (items : List String) (batchSize : Nat) : List (List String) :=
  createBatchesAux items.length items batchSize

/-- Results pushed by one group of jobs, in launch order (the source pushes in
completion order, which is schedule-dependent; every property proved below is
independent of the order within a group). -/
def processBatchResults (env : Env) (batch : List String) : List JobResult :=
  batch.filterMap (fun f => (processFile env f).toOption)

/-- Error records pushed by one group of jobs, in launch order. -/
def processBatchErrors (env : Env) (batch : List String) : List JobErrorInfo :=
  batch.filterMap
    (fun f =>
      match processFile env f with
      | Except.error e => some { file := f, error := e, timestamp := env.now f }
      | Except.ok _ => none)

/-- First failure message within one group, if any (the error that the source
rethrows when `continueOnError` is false). -/
def firstBatchError (env : Env) (batch : List String) : Option String :=
  batch.findSome?
    (fun f =>
      match processFile env f with
      | Except.error e => some e
      | Except.ok _ => none)

/-- Accumulated observable state of the group loop of `processFiles`:
the pushed results and error records, the jobs launched so far
(instrumentation for the abort claims), and the error that aborted the loop,
if any. -/
structure BatchOutcome where
  results : List JobResult
  errors : List JobErrorInfo
  launched : List String
  aborted : Option String
deriving DecidableEq

/-- Embedding of the group loop of `BatchProcessor.processFiles` (lines
37-63): each group is launched as a whole and awaited; with
`continueOnError` false a failing group rethrows after its jobs ran, so no
later group is launched. -/
def runBatches (env : Env) (cont : Bool) : List (List String) → BatchOutcome
  | [] => { results := [], errors := [], launched := [], aborted := none }
  | b :: rest =>
      let rs := processBatchResults env b
      let es := processBatchErrors env b
      match cont, firstBatchError env b with
      | false, some e => { results := rs, errors := es, launched := b, aborted := some e }
      | _, _ =>
          let t := runBatches env cont rest
          { results := rs ++ t.results
            errors := es ++ t.errors
            launched := b ++ t.launched
            aborted := t.aborted }

/-- Report object passed to `saveReport` (lines 67-74). -/
structure BatchReport where
  results : List JobResult
  errors : List JobErrorInfo
  duration : ℚ
  totalFiles : Nat
  successful : Nat
  failed : Nat
deriving DecidableEq

/-- Embedding of `BatchProcessor.processFiles` (lines 28-77): the first
component is what the caller observes (the finalised report, or the
propagated failure when `continueOnError` is false and a job failed); the
second component is the list of jobs that were launched. -/
def processFiles (env : Env) (cont : Bool) (conc : Nat) (files : List String) :
    Except String BatchReport × List String :=
  let out := runBatches env cont (createBatches files conc)
  match out.aborted with
  | some e => (Except.error e, out.launched)
  | none =>
      (Except.ok
        { results := out.results
          errors := out.errors
          duration := env.elapsed
          totalFiles := files.length
          successful := out.results.length
          failed := out.errors.length }
      , out.launched)

/-- Observable outcome of `processDirectory`: the returned result and error
lists, and the finalised report when one was saved (`none` on the empty
early return, which saves nothing). -/
structure DirOutcome where
  results : List JobResult
  errors : List JobErrorInfo
  savedReport : Option BatchReport
deriving DecidableEq

/-- Embedding of `BatchProcessor.processDirectory` (lines 15-26),
parameterised by the file list the glob returned: an empty enumeration
returns empty result and error lists without running any job or saving a
report; otherwise the files are handed to `processFiles`. -/
def processDirectory (env : Env) (cont : Bool) (conc : Nat) (files : List String) :
    Except String DirOutcome :=
  if files.isEmpty then Except.ok { results := [], errors := [], savedReport := none }
  else
    match (processFiles env cont conc files).1 with
    | Except.error e => Except.error e
    | Except.ok rep =>
        Except.ok { results := rep.results, errors := rep.errors, savedReport := some rep }

/-- Extension allow-list taken from the default glob pattern of
`processDirectory` (line 15). -/
def audioExtensions : List String :=
  ["mp3", "wav", "m4a", "mp4", "mpeg", "mpga", "webm"]

/-- Case-insensitive extension test of the enumerator filter. -/
def matchesAudioExt (p : String) : Bool :=
  audioExtensions.any (fun e => endsWithStr (lowerStr (basename p)) ("." ++ e))

/-- Modelled from the spec: the Job Enumerator.  The enumeration itself is
performed by the external glob library (not part of this repository), so its
behaviour is taken from the spec contract: from the recursive listing of the
root directory, keep the paths whose extension is on the allow-list
(case-insensitively) and drop duplicate paths, preserving first-occurrence
order. -/
def enumerateJobs (listing : List String) : List String :=
  (listing.filter matchesAudioExt).dedup

/-- Content of one file of the output directory as the merge operation sees
it: either a JSON document whose optional `text` member is modelled, or raw
non-JSON bytes (on which `JSON.parse` would throw). -/
inductive FileData where
  | jsonData (text : Option String)
  | rawData (s : String)
deriving DecidableEq

/-- State of the output directory: an ordered association of file names to
contents (the order models the enumeration order of the glob). -/
abbrev DirState := List (String × FileData)

/-- Name of the report artifact, excluded by the merge. -/
def reportFileName : String := "transcription_report.json"

/-- Default name of the merged artifact. -/
def mergedFileName : String := "merged_transcript.txt"

/-- Selection made by `glob(path.join(this.outputDir, '*.json'))`: the files
whose name ends in `.json`, in directory order. -/
def globJson (fs : DirState) : List (String × FileData) :=
  fs.filter (fun e => endsWithStr e.1 ".json")

/-- Collection loop of `mergeTranscripts` (lines 178-190): skip the report
file, throw on unparseable JSON, and keep the `text` of each document whose
`text` member is truthy (present and non-empty). -/
def collectTranscripts : List (String × FileData) → Except Unit (List (String × String))
  | [] => Except.ok []
  | (name, d) :: rest =>
      if name = reportFileName then collectTranscripts rest
      else
        match d with
        | FileData.rawData _ => Except.error ()
        | FileData.jsonData t =>
            match collectTranscripts rest with
            | Except.error e => Except.error e
            | Except.ok ts =>
                Except.ok
                  (match t with
                   | some txt => if txt = "" then ts else (name, txt) :: ts
                   | none => ts)

/-- Visible delimiter between merged entries: sixty equals signs. -/
def sepLine : String := String.mk (List.replicate 60 '=')

/-- Concatenation of the collected transcripts (lines 192-194): each entry is
its filename header and text body, and entries are joined by the delimiter
line. -/
def mergedContent (ts : List (String × String)) : String :=
  String.intercalate ("\n" ++ sepLine ++ "\n")
    (ts.map (fun t => "[" ++ t.1 ++ "]\n" ++ t.2 ++ "\n"))

/-- Write to the modelled directory: overwrite every entry carrying the name,
or append a new entry. -/
def fsWrite (fs : DirState) (name : String) (d : FileData) : DirState :=
  if fs.any (fun e => e.1 = name) then
    fs.map (fun e => if e.1 = name then (name, d) else e)
  else fs ++ [(name, d)]

/-- Embedding of `BatchProcessor.mergeTranscripts` (lines 174-201): collect
the transcript bodies of the `.json` artifacts other than the report,
concatenate them, and write the merged text under `outputFile`; the merged
string and the new directory state are returned. -/
def mergeTranscripts (fs : DirState) (outputFile : String) :
    Except Unit (String × DirState) :=
  match collectTranscripts (globJson fs) with
  | Except.error e => Except.error e
  | Except.ok ts =>
      let merged := mergedContent ts
      Except.ok (merged, fsWrite fs outputFile (FileData.rawData merged))

/-- Instantaneous state of the group loop viewed as a transition system: the
groups not yet launched, the jobs of the current group still in flight, and
the jobs that reached a terminal state. -/
structure RunnerSt where
  pending : List (List String)
  current : List String
  done : List String
deriving DecidableEq

/-- Small-step semantics of the group loop of `processFiles`: a new group is
launched as a whole only when no job is in flight (the `await Promise.all`
barrier), and any in-flight job may reach a terminal state at any time (the
completion order within a group is schedule-dependent). -/
inductive BatchStep : RunnerSt → RunnerSt → Prop where
  | launch (g : List String) (rest : List (List String)) (done : List String) :
      BatchStep ⟨g :: rest, [], done⟩ ⟨rest, g, done⟩
  | complete (pending : List (List String)) (pre post : List String) (j : String)
      (done : List String) :
      BatchStep ⟨pending, pre ++ j :: post, done⟩ ⟨pending, pre ++ post, j :: done⟩

/-- Initial state of a run of `processFiles`: all groups pending, nothing in
flight. -/
def initState (files : List String) (conc : Nat) : RunnerSt :=
  ⟨createBatches files conc, [], []⟩

/-- States that some schedule of the group loop can reach. -/
def ReachableSt (files : List String) (conc : Nat) (s : RunnerSt) : Prop :=
  Relation.ReflTransGen BatchStep (initState files conc) s

/-! Basic lemmas about the embedded definitions. -/

/-- Boolean test of whether the per-job processing of `f` fails. -/
def jobFails (env : Env) (f : String) : Bool :=
  match processFile env f with
  | Except.error _ => true
  | Except.ok _ => false

theorem jobFails_true_iff (env : Env) (f : String) :
    jobFails env f = true ↔ ∃ e, processFile env f = Except.error e := by
  unfold jobFails
  cases h : processFile env f <;> simp

theorem jobFails_false_iff (env : Env) (f : String) :
    jobFails env f = false ↔ ∃ r, processFile env f = Except.ok r := by
  unfold jobFails
  cases h : processFile env f <;> simp

theorem processFile_ok_file (env : Env) (f : String) (r : JobResult)
    (h : processFile env f = Except.ok r) : r.file = f := by
  unfold processFile at h
  cases henv : env.transcribe f <;> rw [henv] at h <;> simp at h
  rw [← h]

theorem createBatchesAux_flatten (fuel : Nat) :
    ∀ (items : List String) (n : Nat), 0 < n → items.length ≤ fuel →
      (createBatchesAux fuel items n).flatten = items := by
  induction fuel with
  | zero =>
      intro items n hn hle
      have : items = [] := List.length_eq_zero.mp (Nat.le_zero.mp hle)
      subst this
      rfl
  | succ f ih =>
      intro items n hn hle
      by_cases hi : items.isEmpty
      · have : items = [] := by
          cases items with
          | nil => rfl
          | cons a l => simp [List.isEmpty] at hi
        subst this
        rfl
      · have hn0 : ¬ n = 0 := Nat.pos_iff_ne_zero.mp hn
        simp only [createBatchesAux, hi, if_false, hn0, List.flatten_cons, Bool.false_eq_true,
          if_neg, ite_false]
        rw [ih (items.drop n) n hn]
        · exact List.take_append_drop n items
        · have hlen : items.length ≠ 0 := by
            intro h0
            exact hi (List.isEmpty_iff.mpr (List.length_eq_zero.mp h0))
          have := List.length_drop n items
          omega

theorem createBatches_flatten (items : List String) (n : Nat) (hn : 0 < n) :
    (createBatches items n).flatten = items :=
  createBatchesAux_flatten items.length items n hn (Nat.le_refl _)

theorem createBatchesAux_mem_length (fuel : Nat) :
    ∀ (items : List String) (n : Nat) (g : List String),
      g ∈ createBatchesAux fuel items n → g.length ≤ n := by
  induction fuel with
  | zero => intro items n g hg; simp [createBatchesAux] at hg
  | succ f ih =>
      intro items n g hg
      by_cases hi : items.isEmpty
      · simp [createBatchesAux, hi] at hg
      · by_cases hn0 : n = 0
        · simp [createBatchesAux, hi, hn0] at hg
        · simp only [createBatchesAux, hi, hn0, Bool.false_eq_true, if_false, if_neg,
            ite_false, List.mem_cons] at hg
          cases hg with
          | inl h =>
              subst h
              rw [List.length_take]
              exact Nat.min_le_left _ _
          | inr h => exact ih (items.drop n) n g h

theorem createBatches_mem_length (items : List String) (n : Nat) (g : List String)
    (hg : g ∈ createBatches items n) : g.length ≤ n :=
  createBatchesAux_mem_length items.length items n g hg

theorem processBatch_counts (env : Env) (b : List String) :
    (processBatchResults env b).length + (processBatchErrors env b).length = b.length := by
  induction b with
  | nil => rfl
  | cons f rest ih =>
      cases h : processFile env f with
      | ok r =>
          have h1 : processBatchResults env (f :: rest) = r :: processBatchResults env rest := by
            simp [processBatchResults, List.filterMap_cons, h, Except.toOption]
          have h2 : processBatchErrors env (f :: rest) = processBatchErrors env rest := by
            simp [processBatchErrors, List.filterMap_cons, h]
          rw [h1, h2]
          simp only [List.length_cons]
          omega
      | error e =>
          have h1 : processBatchResults env (f :: rest) = processBatchResults env rest := by
            simp [processBatchResults, List.filterMap_cons, h, Except.toOption]
          have h2 : processBatchErrors env (f :: rest) =
              { file := f, error := e, timestamp := env.now f } :: processBatchErrors env rest := by
            simp [processBatchErrors, List.filterMap_cons, h]
          rw [h1, h2]
          simp only [List.length_cons]
          omega

theorem firstBatchError_none_iff (env : Env) (b : List String) :
    firstBatchError env b = none ↔ ∀ f ∈ b, jobFails env f = false := by
  unfold firstBatchError
  rw [List.findSome?_eq_none_iff]
  constructor <;> intro h f hf <;> have hh := h f hf <;> revert hh <;>
    cases hp : processFile env f <;> simp [jobFails, hp]

theorem firstBatchError_some (env : Env) (b : List String) (e : String)
    (h : firstBatchError env b = some e) : ∃ f ∈ b, processFile env f = Except.error e := by
  obtain ⟨f, hf, hfe⟩ := List.exists_of_findSome?_eq_some h
  refine ⟨f, hf, ?_⟩
  revert hfe
  cases hp : processFile env f <;> simp [hp]

theorem runBatches_true (env : Env) :
    ∀ bs : List (List String),
      runBatches env true bs =
        { results := processBatchResults env bs.flatten
          errors := processBatchErrors env bs.flatten
          launched := bs.flatten
          aborted := none } := by
  intro bs
  induction bs with
  | nil => rfl
  | cons b rest ih =>
      show BatchOutcome.mk _ _ _ _ = _
      rw [ih]
      simp [processBatchResults, processBatchErrors, List.filterMap_append, List.flatten_cons]

theorem runBatches_counts (env : Env) (cont : Bool) :
    ∀ bs : List (List String), (runBatches env cont bs).aborted = none →
      (runBatches env cont bs).results.length + (runBatches env cont bs).errors.length =
        bs.flatten.length := by
  intro bs
  induction bs with
  | nil => intro _; rfl
  | cons b rest ih =>
      intro hab
      cases cont with
      | true =>
          have hstep : runBatches env true (b :: rest) =
              { results := processBatchResults env b ++ (runBatches env true rest).results
                errors := processBatchErrors env b ++ (runBatches env true rest).errors
                launched := b ++ (runBatches env true rest).launched
                aborted := (runBatches env true rest).aborted } := rfl
          rw [hstep] at hab ⊢
          simp only [List.length_append, List.flatten_cons]
          have := processBatch_counts env b
          have := ih hab
          omega
      | false =>
          cases hfe : firstBatchError env b with
          | some e =>
              have hstep : runBatches env false (b :: rest) =
                  { results := processBatchResults env b
                    errors := processBatchErrors env b
                    launched := b
                    aborted := some e } := by
                show (match false, firstBatchError env b with
                  | false, some e => _
                  | _, _ => _) = _
                rw [hfe]
              rw [hstep] at hab
              simp at hab
          | none =>
              have hstep : runBatches env false (b :: rest) =
                  { results := processBatchResults env b ++ (runBatches env false rest).results
                    errors := processBatchErrors env b ++ (runBatches env false rest).errors
                    launched := b ++ (runBatches env false rest).launched
                    aborted := (runBatches env false rest).aborted } := by
                show (match false, firstBatchError env b with
                  | false, some e => _
                  | _, _ => _) = _
                rw [hfe]
              rw [hstep] at hab ⊢
              simp only [List.length_append, List.flatten_cons]
              have := processBatch_counts env b
              have := ih hab
              omega

theorem mem_processBatchResults (env : Env) (b : List String) (r : JobResult) :
    r ∈ processBatchResults env b ↔ ∃ f ∈ b, processFile env f = Except.ok r := by
  unfold processBatchResults
  rw [List.mem_filterMap]
  constructor
  · rintro ⟨f, hf, hm⟩
    refine ⟨f, hf, ?_⟩
    revert hm
    cases hp : processFile env f <;> simp [Except.toOption]
  · rintro ⟨f, hf, hm⟩
    exact ⟨f, hf, by rw [hm]; rfl⟩

theorem mem_processBatchErrors (env : Env) (b : List String) (er : JobErrorInfo) :
    er ∈ processBatchErrors env b ↔
      ∃ f ∈ b, ∃ e, processFile env f = Except.error e ∧
        er = { file := f, error := e, timestamp := env.now f } := by
  unfold processBatchErrors
  rw [List.mem_filterMap]
  constructor
  · rintro ⟨f, hf, hm⟩
    refine ⟨f, hf, ?_⟩
    revert hm
    cases hp : processFile env f with
    | error e => simp only [Option.some_inj]; intro hm; exact ⟨e, rfl, hm.symm⟩
    | ok r => simp
  · rintro ⟨f, hf, e, hpe, her⟩
    exact ⟨f, hf, by rw [hpe, her]⟩

theorem runBatches_false_step_abort (env : Env) (b : List String) (rest : List (List String))
    (e : String) (h : firstBatchError env b = some e) :
    runBatches env false (b :: rest) =
      { results := processBatchResults env b
        errors := processBatchErrors env b
        launched := b
        aborted := some e } := by
  unfold runBatches
  rw [h]

theorem runBatches_false_step_cont (env : Env) (b : List String) (rest : List (List String))
    (h : firstBatchError env b = none) :
    runBatches env false (b :: rest) =
      { results := processBatchResults env b ++ (runBatches env false rest).results
        errors := processBatchErrors env b ++ (runBatches env false rest).errors
        launched := b ++ (runBatches env false rest).launched
        aborted := (runBatches env false rest).aborted } := by
  simp [runBatches, h]

theorem runBatches_false_abort (env : Env) :
    ∀ bs : List (List String), (∃ f ∈ bs.flatten, jobFails env f = true) →
      ∃ pre g rest e, bs = pre ++ g :: rest ∧
        (runBatches env false bs).aborted = some e ∧
        (runBatches env false bs).launched = pre.flatten ++ g ∧
        (∀ f ∈ pre.flatten, jobFails env f = false) ∧
        (∃ f ∈ g, jobFails env f = true) := by
  intro bs
  induction bs with
  | nil => rintro ⟨f, hf, _⟩; simp at hf
  | cons b rest ih =>
      rintro ⟨f, hf, hfail⟩
      cases hfe : firstBatchError env b with
      | some e =>
          refine ⟨[], b, rest, e, rfl, ?_, ?_, by simp, ?_⟩
          · rw [runBatches_false_step_abort env b rest e hfe]
          · rw [runBatches_false_step_abort env b rest e hfe]
            simp
          · obtain ⟨g, hg, hge⟩ := firstBatchError_some env b e hfe
            exact ⟨g, hg, by simp [jobFails, hge]⟩
      | none =>
          have hb : ∀ x ∈ b, jobFails env x = false := (firstBatchError_none_iff env b).mp hfe
          have hf2 : f ∈ rest.flatten := by
            have hf1 : f ∈ b ++ rest.flatten := by rw [List.flatten_cons] at hf; exact hf
            rcases List.mem_append.mp hf1 with hfb | hfr
            · rw [hb f hfb] at hfail; exact absurd hfail (by simp)
            · exact hfr
          obtain ⟨pre, g, rest2, e, hbs, hab, hl, hpre, hg⟩ := ih ⟨f, hf2, hfail⟩
          refine ⟨b :: pre, g, rest2, e, by rw [hbs, List.cons_append], ?_, ?_, ?_, hg⟩
          · rw [runBatches_false_step_cont env b rest hfe]
            exact hab
          · rw [runBatches_false_step_cont env b rest hfe]
            simp only [List.flatten_cons, List.append_assoc]
            rw [hl]
          · intro x hx
            have hx1 : x ∈ b ++ pre.flatten := by rw [List.flatten_cons] at hx; exact hx
            rcases List.mem_append.mp hx1 with h1 | h2
            · exact hb x h1
            · exact hpre x h2

theorem processFiles_true_eq (env : Env) (conc : Nat) (files : List String) (h : 0 < conc) :
    processFiles env true conc files =
      (Except.ok
        { results := processBatchResults env files
          errors := processBatchErrors env files
          duration := env.elapsed
          totalFiles := files.length
          successful := (processBatchResults env files).length
          failed := (processBatchErrors env files).length }
      , files) := by
  unfold processFiles
  rw [runBatches_true, createBatches_flatten files conc h]

/-- Claim C1: with `continueOnError` true, failure of a single job out of N
while all others succeed still yields exactly N recorded outcomes — every
other job has exactly one `JobResult` and no `JobError` (its success is not
prevented by the failure), and the failing job has exactly one `JobError` and
no `JobResult`. -/
theorem claim_c1_failure_isolation (env : Env) (conc : Nat) (files : List String) (f0 : String)
    (hconc : 0 < conc) (hf0 : f0 ∈ files)
    (hfail : jobFails env f0 = true)
    (hok : ∀ f ∈ files, f ≠ f0 → jobFails env f = false) :
    ∃ rep : BatchReport, (processFiles env true conc files).1 = Except.ok rep ∧
      rep.results.length + rep.errors.length = files.length ∧
      (∀ f ∈ files, f ≠ f0 →
        (∃ r ∈ rep.results, r.file = f) ∧ ∀ er ∈ rep.errors, er.file ≠ f) ∧
      (∃ er ∈ rep.errors, er.file = f0) ∧
      (∀ r ∈ rep.results, r.file ≠ f0) := by
  rw [processFiles_true_eq env conc files hconc]
  refine ⟨_, rfl, ?_, ?_, ?_, ?_⟩
  · exact processBatch_counts env files
  · intro f hf hne
    obtain ⟨r, hr⟩ := (jobFails_false_iff env f).mp (hok f hf hne)
    constructor
    · exact ⟨r, (mem_processBatchResults env files r).mpr ⟨f, hf, hr⟩,
        processFile_ok_file env f r hr⟩
    · intro er her heq
      obtain ⟨a, ha, e, hpe, hereq⟩ := (mem_processBatchErrors env files er).mp her
      have hfa : a = f := by rw [← heq, hereq]
      rw [hfa, hr] at hpe
      exact absurd hpe (by simp)
  · obtain ⟨e, he⟩ := (jobFails_true_iff env f0).mp hfail
    exact ⟨{ file := f0, error := e, timestamp := env.now f0 },
      (mem_processBatchErrors env files _).mpr ⟨f0, hf0, e, he, rfl⟩, rfl⟩
  · intro r hr heq
    obtain ⟨a, ha, hpa⟩ := (mem_processBatchResults env files r).mp hr
    have hfa : a = f0 := by rw [← heq, processFile_ok_file env a r hpa]
    obtain ⟨e, he⟩ := (jobFails_true_iff env f0).mp hfail
    rw [hfa, he] at hpa
    exact absurd hpa (by simp)

/-- Concrete job list used by the witnesses: three files, the second of which
is made to fail. -/
def filesW : List String := ["a.mp3", "b.mp3", "c.mp3"]

/-- Concrete behaviour of the outside world used by the witnesses: probing
always succeeds with a two-minute duration, transcription fails exactly on
`b.mp3`, and each job takes sixty seconds of wall-clock time. -/
def envW : Env :=
  { outputDir := "./output"
    probe := fun _ =>
      some
        { duration := "2m 0s"
          durationSeconds := JsNum.fin 120
          codec := some "mp3"
          sampleRate := some "44100"
          channels := some 2
          bitrate := some "128000"
          size := JsNum.fin 1048576
          sizeFormatted := "1.00 MB" }
    transcribe := fun f =>
      if f = "b.mp3" then Except.error "boom"
      else Except.ok { text := some "hello", language := some "en" }
    ptime := fun _ => 60
    now := fun _ => "2026-01-01T00:00:00.000Z"
    elapsed := 120 }

theorem claim_c1_witness :
    (0 < 2 ∧ "b.mp3" ∈ filesW ∧ jobFails envW "b.mp3" = true ∧
        (∀ f ∈ filesW, f ≠ "b.mp3" → jobFails envW f = false)) ∧
      (∃ rep : BatchReport, (processFiles envW true 2 filesW).1 = Except.ok rep ∧
        rep.results.length + rep.errors.length = filesW.length ∧
        (∀ f ∈ filesW, f ≠ "b.mp3" →
          (∃ r ∈ rep.results, r.file = f) ∧ ∀ er ∈ rep.errors, er.file ≠ f) ∧
        (∃ er ∈ rep.errors, er.file = "b.mp3") ∧
        (∀ r ∈ rep.results, r.file ≠ "b.mp3")) :=
  ⟨⟨by decide, by decide, by decide, by decide⟩,
    claim_c1_failure_isolation envW 2 filesW "b.mp3" (by decide) (by decide) (by decide)
      (by decide)⟩

/-- Claim C2: whenever `processFiles` finalises a report, the report's
`totalFiles` equals the number of recorded `JobResult` entries plus the
number of recorded `JobError` entries. -/
theorem claim_c2_report_total (env : Env) (cont : Bool) (conc : Nat) (files : List String)
    (rep : BatchReport) (hconc : 0 < conc)
    (h : (processFiles env cont conc files).1 = Except.ok rep) :
    rep.totalFiles = rep.results.length + rep.errors.length := by
  cases hab : (runBatches env cont (createBatches files conc)).aborted with
  | some e =>
      have habort : (processFiles env cont conc files).1 = Except.error e := by
        simp only [processFiles]
        rw [hab]
      rw [habort] at h
      exact absurd h (by simp)
  | none =>
      have hfe : (processFiles env cont conc files).1 = Except.ok
          { results := (runBatches env cont (createBatches files conc)).results
            errors := (runBatches env cont (createBatches files conc)).errors
            duration := env.elapsed
            totalFiles := files.length
            successful := (runBatches env cont (createBatches files conc)).results.length
            failed := (runBatches env cont (createBatches files conc)).errors.length } := by
        simp only [processFiles]
        rw [hab]
      rw [hfe] at h
      injection h with h2
      rw [← h2]
      have hc := runBatches_counts env cont (createBatches files conc) hab
      rw [createBatches_flatten files conc hconc] at hc
      exact hc.symm

theorem claim_c2_witness :
    0 < 2 ∧ ∃ rep : BatchReport, (processFiles envW true 2 filesW).1 = Except.ok rep ∧
      rep.totalFiles = rep.results.length + rep.errors.length :=
  ⟨by decide, _, rfl, claim_c2_report_total envW true 2 filesW _ (by decide) rfl⟩

/-- Claim C3: with `continueOnError` false, a failing job makes `processFiles`
propagate an error to its caller, and the launched jobs are exactly the groups
up to and including the first group containing a failure — no later group is
ever launched (jobs of the failing group itself are all launched, matching
"outstanding jobs in the current group may finish"). -/
theorem claim_c3_abort_on_failure (env : Env) (conc : Nat) (files : List String)
    (hconc : 0 < conc) (hfail : ∃ f ∈ files, jobFails env f = true) :
    (∃ e, (processFiles env false conc files).1 = Except.error e) ∧
      ∃ pre g rest, createBatches files conc = pre ++ g :: rest ∧
        (processFiles env false conc files).2 = pre.flatten ++ g ∧
        (∀ f ∈ pre.flatten, jobFails env f = false) ∧
        (∃ f ∈ g, jobFails env f = true) := by
  have hfl : ∃ f ∈ (createBatches files conc).flatten, jobFails env f = true := by
    rw [createBatches_flatten files conc hconc]
    exact hfail
  obtain ⟨pre, g, rest, e, hbs, hab, hl, hpre, hg⟩ :=
    runBatches_false_abort env (createBatches files conc) hfl
  constructor
  · refine ⟨e, ?_⟩
    simp only [processFiles]
    rw [hab]
  · refine ⟨pre, g, rest, hbs, ?_, hpre, hg⟩
    have h2 : (processFiles env false conc files).2 =
        (runBatches env false (createBatches files conc)).launched := by
      simp only [processFiles]
      rw [hab]
    rw [h2, hl]

theorem claim_c3_witness :
    (0 < 2 ∧ ∃ f ∈ filesW, jobFails envW f = true) ∧
      ((∃ e, (processFiles envW false 2 filesW).1 = Except.error e) ∧
        ∃ pre g rest, createBatches filesW 2 = pre ++ g :: rest ∧
          (processFiles envW false 2 filesW).2 = pre.flatten ++ g ∧
          (∀ f ∈ pre.flatten, jobFails envW f = false) ∧
          (∃ f ∈ g, jobFails envW f = true)) :=
  ⟨⟨by decide, ⟨"b.mp3", by decide, by decide⟩⟩,
    claim_c3_abort_on_failure envW 2 filesW (by decide) ⟨"b.mp3", by decide, by decide⟩⟩

/-- Inductive invariant of the group loop: the batch list splits into launched
groups followed by the pending ones; if any group was launched, the in-flight
jobs are a sub-list of the most recently launched group, every job of that
group is in flight or terminal, and every job of each earlier group is
terminal. -/
def runnerInv (B : List (List String)) (s : RunnerSt) : Prop :=
  ∃ pre, B = pre ++ s.pending ∧
    ((pre = [] ∧ s.current = []) ∨
      ∃ pre0 g, pre = pre0 ++ [g] ∧ List.Sublist s.current g ∧
        (∀ x ∈ g, x ∈ s.current ∨ x ∈ s.done) ∧
        (∀ gp ∈ pre0, ∀ x ∈ gp, x ∈ s.done))

theorem runnerInv_init (B : List (List String)) : runnerInv B ⟨B, [], []⟩ :=
  ⟨[], by simp, Or.inl ⟨rfl, rfl⟩⟩

theorem runnerInv_step (B : List (List String)) (s1 s2 : RunnerSt)
    (h : BatchStep s1 s2) (hi : runnerInv B s1) : runnerInv B s2 := by
  cases h with
  | launch g rest done =>
      obtain ⟨pre, hB, hcase⟩ := hi
      refine ⟨pre ++ [g], by rw [hB]; simp, Or.inr ⟨pre, g, rfl, List.Sublist.refl g, ?_, ?_⟩⟩
      · intro x hx
        exact Or.inl hx
      · intro gp hgp x hx
        cases hcase with
        | inl hc =>
            rw [hc.1] at hgp
            simp at hgp
        | inr hc =>
            obtain ⟨pre0, g0, hpre, hsub, hcov, hdone⟩ := hc
            rw [hpre] at hgp
            rcases List.mem_append.mp hgp with h1 | h2
            · exact hdone gp h1 x hx
            · have hg0 : gp = g0 := by simpa using h2
              subst hg0
              rcases hcov x hx with h3 | h3
              · simp at h3
              · exact h3
  | complete pending pre2 post j done =>
      obtain ⟨pre, hB, hcase⟩ := hi
      cases hcase with
      | inl hc => exact absurd hc.2 (by simp)
      | inr hc =>
          obtain ⟨pre0, g, hpre, hsub, hcov, hdone⟩ := hc
          refine ⟨pre, hB, Or.inr ⟨pre0, g, hpre, ?_, ?_, ?_⟩⟩
          · exact List.Sublist.trans
              (List.Sublist.append_left (List.sublist_cons_self j post) pre2) hsub
          · intro x hx
            rcases hcov x hx with h1 | h1
            · rcases List.mem_append.mp h1 with h2 | h2
              · exact Or.inl (List.mem_append.mpr (Or.inl h2))
              · rcases List.mem_cons.mp h2 with h3 | h3
                · rw [h3]
                  exact Or.inr (List.mem_cons_self j done)
                · exact Or.inl (List.mem_append.mpr (Or.inr h3))
            · exact Or.inr (List.mem_cons_of_mem j h1)
          · intro gp hgp x hx
            exact List.mem_cons_of_mem j (hdone gp hgp x hx)

theorem runnerInv_reachable (files : List String) (conc : Nat) (s : RunnerSt)
    (h : ReachableSt files conc s) : runnerInv (createBatches files conc) s := by
  induction h with
  | refl => exact runnerInv_init _
  | tail hab hbc ih => exact runnerInv_step _ _ _ hbc ih

/-- Claim C4: in every state a schedule of the group loop can reach, at most
`conc` jobs are in flight, and the in-flight jobs all belong to one group of
`createBatches` such that every job of every earlier group has already reached
a terminal state — no job of a later group starts before the current group
drains. -/
theorem claim_c4_bounded_concurrency (files : List String) (conc : Nat) (s : RunnerSt)
    (hs : ReachableSt files conc s) :
    s.current.length ≤ conc ∧
      (s.current ≠ [] → ∃ pre g rest, createBatches files conc = pre ++ g :: rest ∧
        s.pending = rest ∧ List.Sublist s.current g ∧
        ∀ gp ∈ pre, ∀ x ∈ gp, x ∈ s.done) := by
  obtain ⟨pre, hB, hcase⟩ := runnerInv_reachable files conc s hs
  cases hcase with
  | inl hc =>
      constructor
      · rw [hc.2]
        simp
      · intro hne
        exact absurd hc.2 hne
  | inr hc =>
      obtain ⟨pre0, g, hpre, hsub, hcov, hdone⟩ := hc
      have hgB : g ∈ createBatches files conc := by
        rw [hB, hpre]
        exact List.mem_append.mpr (Or.inl (List.mem_append.mpr (Or.inr (by simp))))
      constructor
      · exact le_trans hsub.length_le (createBatches_mem_length files conc g hgB)
      · intro hne
        refine ⟨pre0, g, s.pending, ?_, rfl, hsub, hdone⟩
        rw [hB, hpre]
        simp [List.append_assoc]

/-- Concrete reachable state used by the C4 witness: the first group of
`filesW` has been launched and is in flight, the second group is pending. -/
def stW : RunnerSt :=
  { pending := [["c.mp3"]], current := ["a.mp3", "b.mp3"], done := [] }

theorem claim_c4_witness :
    ReachableSt filesW 2 stW ∧
      (stW.current.length ≤ 2 ∧
        (stW.current ≠ [] → ∃ pre g rest, createBatches filesW 2 = pre ++ g :: rest ∧
          stW.pending = rest ∧ List.Sublist stW.current g ∧
          ∀ gp ∈ pre, ∀ x ∈ gp, x ∈ stW.done)) := by
  have h0 : initState filesW 2 =
      { pending := [["a.mp3", "b.mp3"], ["c.mp3"]], current := [], done := [] } := by decide
  have hreach : ReachableSt filesW 2 stW := by
    refine Relation.ReflTransGen.single ?_
    rw [h0]
    exact BatchStep.launch ["a.mp3", "b.mp3"] [["c.mp3"]] []
  exact ⟨hreach, claim_c4_bounded_concurrency filesW 2 stW hreach⟩

theorem ratFloor_eq_floor (q : ℚ) : ratFloor q = ⌊q⌋ := by
  unfold ratFloor
  rw [Rat.floor_def]
  exact Int.fdiv_eq_ediv q.num (Int.ofNat_nonneg q.den)

/-- Claim C5 (counterexample): the stated presence condition for the speed
ratio is false on the code — with metadata available and a processing time of
zero, the source still renders a speed ratio (the quotient is the IEEE
infinity), although the stated condition `processing time > 0` demands its
absence. -/
theorem claim_c5_counterexample :
    ¬ (∀ (env : Env) (f : String) (r : JobResult), processFile env f = Except.ok r →
        (r.speedRatioStr.isSome = true ↔
          (∃ d, r.duration = some (JsNum.fin d)) ∧ 0 < env.ptime f)) := by
  intro h
  have h2 := h
    { outputDir := "./output"
      probe := fun _ =>
        some
          { duration := "2m 0s"
            durationSeconds := JsNum.fin 120
            codec := none
            sampleRate := none
            channels := none
            bitrate := none
            size := JsNum.nan
            sizeFormatted := "NaN B" }
      transcribe := fun _ => Except.ok { text := some "hi", language := some "en" }
      ptime := fun _ => 0
      now := fun _ => "t"
      elapsed := 0 }
    "a.mp3" _ rfl
  have h3 := h2.mp rfl
  exact absurd h3.2 (by decide)

/-- Claim C5 (amended): for a successfully processed job the speed ratio field
is present iff the metadata probe returned a record (the source condition is
`audioInfo ?`); when the probe failed both the duration and the speed ratio
are absent (omitted, not zero, not an error); and when the probe supplied a
finite duration and the processing time is positive, the rendered value is
the quotient duration over processing time to two decimal places. -/
theorem claim_c5_speed_amended (env : Env) (f : String) (t : Transcript)
    (ht : env.transcribe f = Except.ok t) :
    ∃ r, processFile env f = Except.ok r ∧
      (r.speedRatioStr.isSome = true ↔ (env.probe f).isSome = true) ∧
      (env.probe f = none → r.speedRatioStr = none ∧ r.duration = none) ∧
      (∀ i, env.probe f = some i → ∀ d, i.durationSeconds = JsNum.fin d →
        0 < env.ptime f → r.speedRatioStr = some (toFixed2 (d / env.ptime f))) := by
  unfold processFile
  rw [ht]
  refine ⟨_, rfl, ?_, ?_, ?_⟩
  · cases hp : env.probe f <;> simp [hp]
  · intro hp
    simp [hp]
  · intro i hp d hd hpt
    have hne : ¬ env.ptime f = 0 := by
      intro h0
      rw [h0] at hpt
      exact absurd hpt (by decide)
    simp [hp, hd, jsDiv, hne, jsToFixed2]

theorem claim_c5_witness :
    envW.transcribe "a.mp3" = Except.ok { text := some "hello", language := some "en" } ∧
      (∃ r, processFile envW "a.mp3" = Except.ok r ∧
        (r.speedRatioStr.isSome = true ↔ (envW.probe "a.mp3").isSome = true) ∧
        (envW.probe "a.mp3" = none → r.speedRatioStr = none ∧ r.duration = none) ∧
        (∀ i, envW.probe "a.mp3" = some i → ∀ d, i.durationSeconds = JsNum.fin d →
          0 < envW.ptime "a.mp3" →
            r.speedRatioStr = some (toFixed2 (d / envW.ptime "a.mp3")))) :=
  ⟨rfl, claim_c5_speed_amended envW "a.mp3" _ rfl⟩

/-- Example from the spec: a 120-second source transcribed in 60 seconds
renders the speed ratio string as two. -/
theorem speed_example_two : jsToFixed2 (jsDiv (JsNum.fin 120) (JsNum.fin 60)) = "2.00" := by
  have hd : jsDiv (JsNum.fin 120) (JsNum.fin 60) = JsNum.fin (120 / 60) := by
    simp [jsDiv]
  rw [hd]
  show toFixed2 (120 / 60) = "2.00"
  have h : ratFloor ((120 / 60 : ℚ) * 100 + 1 / 2) = 200 := by
    rw [ratFloor_eq_floor, Int.floor_eq_iff]
    constructor <;> norm_num
  unfold toFixed2
  rw [h]
  decide

/-- Example from the spec: a 65-second source transcribed in 30 seconds
renders the speed ratio string with value 2.17. -/
theorem speed_example_two17 : jsToFixed2 (jsDiv (JsNum.fin 65) (JsNum.fin 30)) = "2.17" := by
  have hd : jsDiv (JsNum.fin 65) (JsNum.fin 30) = JsNum.fin (65 / 30) := by
    simp [jsDiv]
  rw [hd]
  show toFixed2 (65 / 30) = "2.17"
  have h : ratFloor ((65 / 30 : ℚ) * 100 + 1 / 2) = 217 := by
    rw [ratFloor_eq_floor, Int.floor_eq_iff]
    constructor <;> norm_num
  unfold toFixed2
  rw [h]
  decide

theorem filter_json_map_write (name : String) (d : FileData)
    (h : endsWithStr name ".json" = false) :
    ∀ fs : DirState,
      (fs.map (fun e => if e.1 = name then (name, d) else e)).filter
          (fun e => endsWithStr e.1 ".json") =
        fs.filter (fun e => endsWithStr e.1 ".json") := by
  intro fs
  induction fs with
  | nil => rfl
  | cons e rest ih =>
      by_cases he : e.1 = name
      · rw [List.map_cons, if_pos he, List.filter_cons, List.filter_cons]
        simp only [h, he]
        exact ih
      · rw [List.map_cons, if_neg he, List.filter_cons, List.filter_cons]
        cases hw : endsWithStr e.1 ".json" <;> simp [hw, ih]

theorem globJson_fsWrite (fs : DirState) (name : String) (d : FileData)
    (h : endsWithStr name ".json" = false) : globJson (fsWrite fs name d) = globJson fs := by
  unfold fsWrite globJson
  by_cases ha : fs.any (fun e => e.1 = name) = true
  · rw [if_pos ha]
    exact filter_json_map_write name d h fs
  · rw [if_neg ha, List.filter_append]
    simp [h]

theorem fsWrite_overwrite (fs : DirState) (name : String) (d : FileData) :
    fsWrite (fsWrite fs name d) name d = fsWrite fs name d := by
  unfold fsWrite
  by_cases ha : fs.any (fun e => e.1 = name) = true
  · rw [if_pos ha]
    obtain ⟨e, he, hename⟩ := List.any_eq_true.mp ha
    have ha2 : (fs.map (fun e => if e.1 = name then (name, d) else e)).any
        (fun e => e.1 = name) = true := by
      refine List.any_eq_true.mpr ⟨(name, d), List.mem_map.mpr ⟨e, he, ?_⟩, by simp⟩
      rw [if_pos (by exact of_decide_eq_true hename)]
    rw [if_pos ha2, List.map_map]
    have : ∀ x ∈ fs, ((fun e => if e.1 = name then (name, d) else e) ∘
        (fun e => if e.1 = name then (name, d) else e)) x =
        (fun e => if e.1 = name then (name, d) else e) x := by
      intro x hx
      by_cases hxn : x.1 = name
      · simp [hxn]
      · simp [hxn]
    rw [List.map_congr_left this]
  · rw [if_neg ha]
    have ha2 : ((fs ++ [(name, d)]).any (fun e => e.1 = name)) = true := by
      refine List.any_eq_true.mpr ⟨(name, d), List.mem_append.mpr (Or.inr (by simp)), by simp⟩
    rw [if_pos ha2, List.map_append]
    have hfs : fs.map (fun e => if e.1 = name then (name, d) else e) = fs := by
      have : ∀ x ∈ fs, (fun e => if e.1 = name then (name, d) else e) x = id x := by
        intro x hx
        have hxn : ¬ x.1 = name := by
          intro hxx
          exact ha (List.any_eq_true.mpr ⟨x, hx, by simp [hxx]⟩)
        simp [hxn]
      rw [List.map_congr_left this, List.map_id]
    rw [hfs]
    simp

/-- Claim C6: the merge operation is idempotent — if a run of
`mergeTranscripts` over a directory state produced a merged text and a new
directory state, running it again over that state yields the byte-identical
merged text and leaves the state unchanged (the merged artifact is a `.txt`,
so the second run selects the same `.json` inputs). -/
theorem claim_c6_merge_idempotent (fs : DirState) (m : String) (fs1 : DirState)
    (h : mergeTranscripts fs mergedFileName = Except.ok (m, fs1)) :
    mergeTranscripts fs1 mergedFileName = Except.ok (m, fs1) := by
  unfold mergeTranscripts at h ⊢
  cases hc : collectTranscripts (globJson fs) with
  | error e =>
      rw [hc] at h
      exact absurd h (by simp)
  | ok ts =>
      rw [hc] at h
      injection h with h2
      obtain ⟨hm, hfs1⟩ := Prod.mk.inj h2
      have hnj : endsWithStr mergedFileName ".json" = false := by decide
      have hg : globJson fs1 = globJson fs := by
        rw [← hfs1]
        exact globJson_fsWrite fs mergedFileName _ hnj
      rw [hg, hc]
      show Except.ok
          (mergedContent ts, fsWrite fs1 mergedFileName (FileData.rawData (mergedContent ts))) =
        Except.ok (m, fs1)
      rw [← hm, ← hfs1, fsWrite_overwrite]

/-- Concrete directory state used by the C6 witness: one transcript artifact,
the report artifact, and a non-JSON summary file. -/
def dirW : DirState :=
  [("a.json", FileData.jsonData (some "hello")),
   ("transcription_report.json", FileData.jsonData (some "zzz")),
   ("summary.txt", FileData.rawData "sum")]

theorem claim_c6_witness :
    ∃ m fs1, mergeTranscripts dirW mergedFileName = Except.ok (m, fs1) ∧
      mergeTranscripts fs1 mergedFileName = Except.ok (m, fs1) :=
  ⟨_, _, rfl, claim_c6_merge_idempotent dirW _ _ rfl⟩

/-- Claim C7: an empty enumeration (no file matches) is a valid outcome, not
an error — `processDirectory` returns successfully with empty result and
error lists (so every derived count is zero) and finalises no report. -/
theorem claim_c7_empty_enumeration (env : Env) (cont : Bool) (conc : Nat)
    (listing : List String) (h : ∀ p ∈ listing, matchesAudioExt p = false) :
    enumerateJobs listing = [] ∧
      processDirectory env cont conc (enumerateJobs listing) =
        Except.ok { results := [], errors := [], savedReport := none } := by
  have he : enumerateJobs listing = [] := by
    unfold enumerateJobs
    have hf : listing.filter matchesAudioExt = [] := by
      refine List.filter_eq_nil_iff.mpr ?_
      intro a ha
      rw [h a ha]
      simp
    rw [hf]
    rfl
  rw [he]
  exact ⟨rfl, rfl⟩

theorem claim_c7_witness :
    (∀ p ∈ (["notes.txt", "readme.md"] : List String), matchesAudioExt p = false) ∧
      (enumerateJobs ["notes.txt", "readme.md"] = [] ∧
        processDirectory envW true 2 (enumerateJobs ["notes.txt", "readme.md"]) =
          Except.ok { results := [], errors := [], savedReport := none }) :=
  ⟨by decide, claim_c7_empty_enumeration envW true 2 ["notes.txt", "readme.md"] (by decide)⟩

/-- Claim C8: the Job Enumerator returns the ordered set of distinct paths of
the recursive listing whose extension is on the fixed allow-list,
case-insensitively — a path is in the output iff it is a listed path with a
matching extension, no path appears twice, and the output preserves the
listing order (it is a sub-list of the listing).  The enumeration itself is
performed by the external glob library, so the filter is modelled from the
spec contract. -/
theorem claim_c8_enumerator (listing : List String) :
    (enumerateJobs listing).Nodup ∧
      (∀ p, p ∈ enumerateJobs listing ↔ p ∈ listing ∧ matchesAudioExt p = true) ∧
      List.Sublist (enumerateJobs listing) listing := by
  refine ⟨List.nodup_dedup _, ?_, ?_⟩
  · intro p
    unfold enumerateJobs
    rw [List.mem_dedup, List.mem_filter]
  · exact List.Sublist.trans (List.dedup_sublist _) (List.filter_sublist listing)

/-- Claim C9: the audio-metadata operation is total over every behaviour of
the external probing tool — it returns either an info record or the `null`
"unavailable" signal, never an exception — and metadata unavailability does
not block transcription: the per-job pipeline still emits a `JobResult`, with
the duration and speed ratio fields absent. -/
theorem claim_c9_metadata_unavailable (pb : String → ProbeOut) (env : Env) (f : String)
    (t : Transcript) (hprobe : env.probe = fun g => getAudioInfo (pb g))
    (ht : env.transcribe f = Except.ok t) :
    ((∃ i, getAudioInfo (pb f) = some i) ∨ getAudioInfo (pb f) = none) ∧
      (getAudioInfo (pb f) = none →
        ∃ r, processFile env f = Except.ok r ∧ r.duration = none ∧ r.speedRatioStr = none) := by
  constructor
  · cases hg : getAudioInfo (pb f) with
    | none => exact Or.inr rfl
    | some i => exact Or.inl ⟨i, rfl⟩
  · intro hnone
    unfold processFile
    rw [ht]
    refine ⟨_, rfl, ?_, ?_⟩
    · rw [hprobe]
      simp [hnone]
    · rw [hprobe]
      simp [hnone]

/-- Probe behaviour used by the C9 witness: the external tool always fails to
execute. -/
def pbW : String → ProbeOut := fun _ => ProbeOut.execFail

/-- Environment used by the C9 witness: the probe is routed through
`getAudioInfo` over `pbW` and transcription succeeds. -/
def envC9 : Env :=
  { outputDir := "./output"
    probe := fun g => getAudioInfo (pbW g)
    transcribe := fun _ => Except.ok { text := some "hi", language := some "en" }
    ptime := fun _ => 60
    now := fun _ => "t"
    elapsed := 1 }

theorem claim_c9_witness :
    (envC9.probe = fun g => getAudioInfo (pbW g)) ∧
      (envC9.transcribe "a.mp3" = Except.ok { text := some "hi", language := some "en" }) ∧
      (((∃ i, getAudioInfo (pbW "a.mp3") = some i) ∨ getAudioInfo (pbW "a.mp3") = none) ∧
        (getAudioInfo (pbW "a.mp3") = none →
          ∃ r, processFile envC9 "a.mp3" = Except.ok r ∧ r.duration = none ∧
            r.speedRatioStr = none)) :=
  ⟨rfl, rfl, claim_c9_metadata_unavailable pbW envC9 "a.mp3" _ rfl rfl⟩

/-- Claim C10: the constructor stores `continueOnError` as true for every
value of the option — including the omitted value `undefined` — except the
exact boolean `false`; only an explicit `continueOnError: false` selects the
abort-on-first-failure policy. -/
theorem claim_c10_continue_default (opts : BatchOptions) :
    (mkBatchProcessor opts).continueOnError = true ↔
      opts.continueOnError ≠ JSValue.bool false := by
  show jsStrictNeFalse opts.continueOnError = true ↔ _
  cases hv : opts.continueOnError with
  | undef => simp [jsStrictNeFalse]
  | null => simp [jsStrictNeFalse]
  | num q => simp [jsStrictNeFalse]
  | str s => simp [jsStrictNeFalse]
  | bool b => cases b <;> simp [jsStrictNeFalse]
